import Mathlib

/-!
# Verification of the password-acceptability evaluator

Shallow embedding of `is_valid_password` (src/1__Empathy_Encryption_Hackathon/main.py)
over `List Char`, together with theorems settling the specification claims.

Modelling conventions:
* A Python string is a `List Char` of Unicode code points.
* Python's Unicode-table character predicates (`str.isdigit`, `str.isalnum`,
  `str.isspace`, `str.lower`) are embedded exactly for all code points below
  0x100 (ASCII and Latin-1); code points at or above 0x100 are treated as
  non-digit, non-alphanumeric, non-space and are left unchanged by lowering.
  Every concrete input appearing in a theorem below stays inside the
  exactly-modelled range.
* Python float arithmetic is modelled as exact rational / real arithmetic.
  The three ratio thresholds (0.55, 0.35, 0.15, 0.5, 0.3) are compared as
  rationals; for length <= 128 the rational comparison agrees with the IEEE
  double comparison performed by the source because the candidate ratios are
  separated from the thresholds by far more than the rounding error.
* The entropy cutoff `H >= 2.5` is embedded as the equivalent integer
  inequality `2^(5n) * prod c_i^(2 c_i) <= n^(2n)` (see `entropyTest` and the
  bridging theorem `entropyTest_iff_shannon` proved below, which shows that
  this inequality is exactly `H >= 5/2` for the Shannon entropy of the
  character frequency distribution).
-/

/-- Carriage-return / line-feed test: the two characters removed by
`password.strip("\n\r")` in the source. -/
def isCRLF (c : Char) : Bool := c == '\n' || c == '\r'

/-- Python `password.strip("\n\r")`: remove leading and trailing characters
belonging to the set `\x7b'\n', '\r'\x7d` (and nothing else). -/
def stripCRLF (l : List Char) : List Char :=
  ((l.dropWhile isCRLF).reverse.dropWhile isCRLF).reverse

/-- ASCII lowercase letter test, the source's `"a" <= c <= "z"`. -/
def isLowerA (c : Char) : Bool := 'a' ≤ c && c ≤ 'z'

/-- ASCII uppercase letter test, the source's `"A" <= c <= "Z"`. -/
def isUpperA (c : Char) : Bool := 'A' ≤ c && c ≤ 'Z'

/-- ASCII digit test, also the meaning of the regex classes `[0-9]` and `\d`
for code points below 0x100 (the only Unicode decimal digits below 0x100 are
the ASCII ones). -/
def isDigitA (c : Char) : Bool := '0' ≤ c && c ≤ '9'

/-- ASCII letter test, the regex class `[A-Za-z]`. -/
def isLetterA (c : Char) : Bool := isLowerA c || isUpperA c

/-- Vowel test, the regex class `[AEIOUaeiou]`. -/
def isVowelA (c : Char) : Bool :=
  c == 'A' || c == 'E' || c == 'I' || c == 'O' || c == 'U' ||
  c == 'a' || c == 'e' || c == 'i' || c == 'o' || c == 'u'

/-- Consonant test, the regex class `[B-DF-HJ-NP-TV-Zb-df-hj-np-tv-z]`:
an ASCII letter that is not a vowel. -/
def isConsA (c : Char) : Bool := isLetterA c && !isVowelA c

/-- Python `str.isdigit`, exact for code points below 0x100: the ASCII digits
plus the superscripts one, two and three (U+00B9, U+00B2, U+00B3). Code
points at or above 0x100 are modelled as non-digits. -/
def pyIsDigit (c : Char) : Bool :=
  isDigitA c || c == '¹' || c == '²' || c == '³'

/-- Python `str.isalnum`, exact for code points below 0x100: ASCII
alphanumerics, the Latin-1 letters U+00C0-U+00FF except the multiplication
and division signs (U+00D7, U+00F7), and the Latin-1 characters with a
letter or numeric property (feminine/masculine ordinals U+00AA/U+00BA, micro
sign U+00B5, superscripts U+00B9/U+00B2/U+00B3, vulgar fractions
U+00BC/U+00BD/U+00BE). Code points at or above 0x100 are modelled as
non-alphanumeric. -/
def pyIsAlnum (c : Char) : Bool :=
  isLetterA c || isDigitA c ||
  c == 'ª' || c == 'µ' || c == 'º' ||
  c == '¹' || c == '²' || c == '³' ||
  c == '¼' || c == '½' || c == '¾' ||
  (0xC0 ≤ c.toNat && c.toNat ≤ 0xFF && c.toNat != 0xD7 && c.toNat != 0xF7)

/-- Python `str.isspace`, exact for code points below 0x100:
`\t \n \v \f \r` (0x09-0x0D), the separator controls 0x1C-0x1F, the space
0x20, next-line 0x85 and no-break space 0xA0. Code points at or above 0x100
are modelled as non-space. -/
def pyIsSpace (c : Char) : Bool :=
  (9 ≤ c.toNat && c.toNat ≤ 13) || (28 ≤ c.toNat && c.toNat ≤ 31) ||
  c.toNat == 32 || c.toNat == 0x85 || c.toNat == 0xA0

/-- Python `str.lower`, character by character, exact for code points below
0x100: the ASCII uppercase letters and the Latin-1 uppercase letters
U+00C0-U+00DE (except the multiplication sign U+00D7) map to their lowercase
forms; everything else below 0x100 is unchanged. Code points at or above
0x100 are modelled as unchanged. -/
def pyLower (c : Char) : Char :=
  match c with
  | 'A' => 'a' | 'B' => 'b' | 'C' => 'c' | 'D' => 'd' | 'E' => 'e'
  | 'F' => 'f' | 'G' => 'g' | 'H' => 'h' | 'I' => 'i' | 'J' => 'j'
  | 'K' => 'k' | 'L' => 'l' | 'M' => 'm' | 'N' => 'n' | 'O' => 'o'
  | 'P' => 'p' | 'Q' => 'q' | 'R' => 'r' | 'S' => 's' | 'T' => 't'
  | 'U' => 'u' | 'V' => 'v' | 'W' => 'w' | 'X' => 'x' | 'Y' => 'y'
  | 'Z' => 'z'
  | 'À' => 'à' | 'Á' => 'á' | 'Â' => 'â' | 'Ã' => 'ã' | 'Ä' => 'ä'
  | 'Å' => 'å' | 'Æ' => 'æ' | 'Ç' => 'ç' | 'È' => 'è' | 'É' => 'é'
  | 'Ê' => 'ê' | 'Ë' => 'ë' | 'Ì' => 'ì' | 'Í' => 'í' | 'Î' => 'î'
  | 'Ï' => 'ï' | 'Ð' => 'ð' | 'Ñ' => 'ñ' | 'Ò' => 'ò' | 'Ó' => 'ó'
  | 'Ô' => 'ô' | 'Õ' => 'õ' | 'Ö' => 'ö' | 'Ø' => 'ø' | 'Ù' => 'ù'
  | 'Ú' => 'ú' | 'Û' => 'û' | 'Ü' => 'ü' | 'Ý' => 'ý' | 'Þ' => 'þ'
  | c => c

/-- Is `pat` an initial segment of `l`? (Helper for substring search.) -/
def beginsWith : List Char → List Char → Bool
  | [], _ => true
  | _ :: _, [] => false
  | p :: ps, c :: cs => p == c && beginsWith ps cs

/-- Python's `pat in l` substring containment test for strings. -/
def occursIn (pat : List Char) : List Char → Bool
  | [] => pat.isEmpty
  | c :: cs => beginsWith pat (c :: cs) || occursIn pat cs

/-- All contiguous windows of length `k` of `r`: the Python generator
`(r[i:i+k] for i in range(len(r)-k+1))` (an empty generator when
`k > len(r)`, which `len(r) + 1 - k` reproduces in `Nat` arithmetic). -/
def windowsOf (r : List Char) (k : Nat) : List (List Char) :=
  (List.range (r.length + 1 - k)).map (fun i => (r.drop i).take k)

/-- The three alphabets scanned by `looks_like_sequence`. -/
def seqRuns : List (List Char) :=
  [("abcdefghijklmnopqrstuvwxyz").toList,
   ("ABCDEFGHIJKLMNOPQRSTUVWXYZ").toList,
   ("0123456789").toList]

/-- Source `looks_like_sequence(text, min_run)`: after an early exit for
short inputs, look for any `min_run`-length window of one of the three
alphabets, or of their reversals, occurring literally inside `text`. -/
def looks_like_sequence (text : List Char) (minRun : Nat) : Bool :=
  if text.length < minRun then false
  else seqRuns.any (fun r =>
    (windowsOf r minRun).any (fun w => occursIn w text) ||
    (windowsOf r.reverse minRun).any (fun w => occursIn w text))

/-- The three physical keyboard rows scanned by `has_keyboard_run`. -/
def kbRows : List (List Char) :=
  [("qwertyuiop").toList, ("asdfghjkl").toList, ("zxcvbnm").toList]

/-- Source `has_keyboard_run(text, min_run)`: lowercase the text, then look
for any `min_run`-length window of a keyboard row, forwards or reversed. -/
def has_keyboard_run (text : List Char) (minRun : Nat) : Bool :=
  let t := text.map pyLower
  kbRows.any (fun row =>
    (windowsOf row minRun).any (fun seg => occursIn seg t || occursIn seg.reverse t))

/-- Source `repeating_substring(text)`: `for m in range(1, min(4, n))`,
accept when `m` divides `n` and the first `m` characters repeated `n / m`
times rebuild `text` exactly. -/
def repeating_substring (text : List Char) : Bool :=
  let n := text.length
  (List.range' 1 (min 4 n - 1)).any (fun m =>
    n % m == 0 && text == (List.replicate (n / m) (text.take m)).flatten)

/-- Source `long_run_same_char(text, k)`, the regex `(.)\1{k,}`: some
character other than a newline (regex `.` does not match `'\n'`) occurs at
least `k + 1` times consecutively. -/
def long_run_same_char (text : List Char) (k : Nat) : Bool :=
  (List.range text.length).any (fun i =>
    match (text.drop i).take (k + 1) with
    | [] => false
    | c :: cs => c != '\n' && cs.length == k && cs.all (fun d => d == c))

/-- The four flags returned by the source's `char_classes`. -/
structure ClassFlags where
  has_lower : Bool
  has_upper : Bool
  has_digit : Bool
  has_symbol : Bool
deriving DecidableEq, Repr

/-- Source `char_classes(text)`: ASCII range tests for the letter flags,
Python's Unicode `isdigit` for the digit flag, and "neither alphanumeric nor
whitespace" under Python's Unicode classification for the symbol flag. -/
def char_classes (text : List Char) : ClassFlags where
  has_lower := text.any isLowerA
  has_upper := text.any isUpperA
  has_digit := text.any pyIsDigit
  has_symbol := text.any (fun c => !pyIsAlnum c && !pyIsSpace c)

/-- Does some window of three consecutive elements satisfy `p`? (Existence
of a match of a three-character regex pattern.) -/
def window3any (p : Char → Char → Char → Bool) : List Char → Bool
  | a :: b :: c :: rest => p a b c || window3any p (b :: c :: rest)
  | _ => false

/-- Source `looks_like_word_segment(seg)`: keep only the ASCII letters
(regex `re.sub(r"[^A-Za-z]", "", seg)`), require length at least 4, a vowel,
a consonant (Python's `c.isalpha()` conjunct is identically true on the
filtered segment, so the consonant test is "ASCII letter and not a vowel"),
and a consonant-vowel-consonant window. -/
def looks_like_word_segment (seg : List Char) : Bool :=
  let t := seg.filter isLetterA
  if t.length < 4 then false
  else
    t.any isVowelA && t.any isConsA &&
      window3any (fun a b c => isConsA a && isVowelA b && isConsA c) t

/-- Separator class of `wordish_presence`, the regex
`[\s\-_\.@#\$%!:\+\*]` (where `\s` is Python's whitespace class). -/
def sepChar (c : Char) : Bool :=
  pyIsSpace c || ("-_.@#$%!:+*").toList.contains c

/-- Split at every character satisfying `p`, keeping (possibly empty)
chunks.  Python's `re.split` on a `+`-quantified class collapses runs of
separators, which differs from this only by extra empty chunks between
consecutive separators; empty chunks never pass `looks_like_word_segment`,
so the disjunction over chunks is unchanged. -/
def splitChunks (p : Char → Bool) : List Char → List (List Char)
  | [] => [[]]
  | c :: cs =>
    let r := splitChunks p cs
    if p c then [] :: r
    else
      match r with
      | [] => [[c]]
      | h :: t => (c :: h) :: t

/-- After `[A-Z][a-z]` has been consumed: scan further lowercase letters
until another uppercase letter completes the CamelCase match. -/
def camelTail : List Char → Bool
  | [] => false
  | c :: cs => if isUpperA c then true else if isLowerA c then camelTail cs else false

/-- Does a match of the regex `[A-Z][a-z]+[A-Z][a-z]*` start at the head of
the list?  (The trailing `[a-z]*` never affects existence of a match.) -/
def camelAt : List Char → Bool
  | u :: l :: rest => isUpperA u && isLowerA l && camelTail rest
  | _ => false

/-- Existence of a CamelCase match `re.search(r"[A-Z][a-z]+[A-Z][a-z]*", text)`
anywhere in `text`. -/
def hasCamel : List Char → Bool
  | [] => false
  | c :: cs => camelAt (c :: cs) || hasCamel cs

/-- Source `wordish_presence(text)`: some separator-delimited chunk is
word-like, or a CamelCase pattern occurs. -/
def wordish_presence (text : List Char) : Bool :=
  (splitChunks sepChar text).any looks_like_word_segment || hasCamel text

/-- Source `non_edge_digit_symbol(text)`: a letter-digit-letter window
(regex `[A-Za-z][0-9][A-Za-z]`) or a letter-nonalphanumeric-letter window
(regex `[A-Za-z][^A-Za-z0-9][A-Za-z]`) occurs in `text`. -/
def non_edge_digit_symbol (text : List Char) : Bool :=
  window3any (fun a b c => isLetterA a && isDigitA b && isLetterA c) text ||
  window3any (fun a b c => isLetterA a && !(isLetterA b || isDigitA b) && isLetterA c) text

/-- Do four characters match the regex alternation `19\d{2}|20[0-3]\d`? -/
def isYear4 : List Char → Bool
  | [a, b, c, d] =>
    (a == '1' && b == '9' && isDigitA c && isDigitA d) ||
    (a == '2' && b == '0' && ('0' ≤ c && c ≤ '3') && isDigitA d)
  | _ => false

/-- Source `has_year_like_suffix(text)`, the regex
`(19\d{2}|20[0-3]\d)$`: the anchor `$` matches at the end of the string or
just before one final newline, so the last four characters (after dropping
one trailing `'\n'` if present) must match `isYear4`. -/
def has_year_like_suffix (text : List Char) : Bool :=
  let t := if text.getLast? == some '\n' then text.dropLast else text
  isYear4 (t.drop (t.length - 4))

/-- The union of the six lookalike-confusion groups of `ambiguous_ratio`. -/
def ambChar (c : Char) : Bool := ("0O1lI5S8B2Z6G").toList.contains c

/-- Number of ambiguous characters in `text`. -/
def ambCount (text : List Char) : Nat := text.countP ambChar

/-- Source `ambiguous_ratio(text)`: `amb / max(1, len(text))` as an exact
rational. -/
def ambFrac (text : List Char) : ℚ :=
  (ambCount text : ℚ) / ((max 1 text.length : Nat) : ℚ)

/-- The source's `len(set(s)) / len(s)` as an exact rational (`List.dedup`
has one element per distinct character). -/
def uniqFrac (text : List Char) : ℚ :=
  (text.dedup.length : ℚ) / (text.length : ℚ)

/-- Executable form of `ambiguous_ratio(s) > 0.55`, by cross-multiplying
with the always-positive denominator `max(1, len(s))`; proved equal to the
rational comparison in `ambGt55_iff`. -/
def ambGt55 (s : List Char) : Bool :=
  decide (11 * max 1 s.length < 20 * ambCount s)

/-- Executable form of `ambiguous_ratio(s) > 0.35` (see `ambGt35_iff`). -/
def ambGt35 (s : List Char) : Bool :=
  decide (7 * max 1 s.length < 20 * ambCount s)

/-- Executable form of `ambiguous_ratio(s) > 0.15` (see `ambGt15_iff`). -/
def ambGt15 (s : List Char) : Bool :=
  decide (3 * max 1 s.length < 20 * ambCount s)

/-- Executable form of `uniq_ratio >= 0.5` for nonempty `s`
(see `uniqGe50_iff`). -/
def uniqGe50 (s : List Char) : Bool :=
  decide (s.length ≤ 2 * s.dedup.length)

/-- Executable form of `uniq_ratio <= 0.3` for nonempty `s`
(see `uniqLe30_iff`). -/
def uniqLe30 (s : List Char) : Bool :=
  decide (10 * s.dedup.length ≤ 3 * s.length)

/-- Character frequencies of `text`, one count per distinct character: the
values of the `freq` dictionary built by `shannon_entropy_per_char`. -/
def countsOf (text : List Char) : List Nat :=
  text.dedup.map (fun c => text.count c)

/-- The source's entropy cutoff `shannon_entropy_per_char(s) >= 2.5`,
restated as an exact integer inequality: with `n = len(text)` and counts
`c_i`, the entropy is `H = log2 n - (1/n) * sum c_i * log2 c_i`, so
`H >= 5/2` is equivalent to `2^(5n) * prod c_i^(2 c_i) <= n^(2n)` (proved
in `entropyTest_iff_shannon` for nonempty `text`). -/
def entropyTest (text : List Char) : Bool :=
  let n := text.length
  decide (2 ^ (5 * n) * ((countsOf text).map (fun c => c ^ (2 * c))).prod ≤ n ^ (2 * n))

/-- The 17 denylist tokens `COMMON_BAD` of the source. -/
def COMMON_BAD : List (List Char) :=
  [("password").toList, ("passw0rd").toList, ("qwerty").toList,
   ("asdfgh").toList, ("zxcvbn").toList, ("iloveyou").toList,
   ("welcome").toList, ("admin").toList, ("letmein").toList,
   ("login").toList, ("user").toList, ("guest").toList,
   ("abc123").toList, ("password1").toList, ("p@ssword").toList,
   ("dragon").toList, ("football").toList]

/-- The source's denylist check: `any(token in s.lower() for token in COMMON_BAD)`. -/
def denylistHit (s : List Char) : Bool :=
  COMMON_BAD.any (fun tok => occursIn tok (s.map pyLower))

/-- `sum([has_lower, has_upper, has_digit, has_symbol])` of the source. -/
def classCountOf (s : List Char) : Nat :=
  (if (char_classes s).has_lower then 1 else 0) +
  (if (char_classes s).has_upper then 1 else 0) +
  (if (char_classes s).has_digit then 1 else 0) +
  (if (char_classes s).has_symbol then 1 else 0)

/-- The additive scoring table of the source (and of spec section 4.4),
addend by addend in source order: length band, class variety, word-likeness,
interior digit/symbol, year suffix, 4-length sequential run, 4-length
keyboard run, 4-length same-character run, unique-character band, ambiguity
bands, entropy bonus. -/
def scoreOf (s : List Char) : ℤ :=
  (if 10 ≤ s.length ∧ s.length ≤ 64 then 2
   else if 8 ≤ s.length ∧ s.length < 10 then 1 else 0) +
  (if 3 ≤ classCountOf s then 2
   else if classCountOf s = 2 then 1 else -3) +
  (if wordish_presence s then 2 else 0) +
  (if non_edge_digit_symbol s then 1 else 0) +
  (if has_year_like_suffix s then -2 else 0) +
  (if looks_like_sequence s 4 then -2 else 0) +
  (if has_keyboard_run s 4 then -2 else 0) +
  (if long_run_same_char s 3 then -2 else 0) +
  (if uniqGe50 s then 1 else if uniqLe30 s then -1 else 0) +
  (if ambGt35 s then -2 else if ambGt15 s then -1 else 0) +
  (if 12 ≤ s.length ∧ entropyTest s = true then 1 else 0)

/-- Disjunction of the five fatal checks of the source, in source order:
denylist token, 5-length sequential or keyboard run, short-period exact
repetition, 5-length same-character run, ambiguous ratio above 0.55. -/
def fatalFired (s : List Char) : Bool :=
  denylistHit s || (looks_like_sequence s 5 || has_keyboard_run s 5) ||
  repeating_substring s || long_run_same_char s 4 || ambGt55 s

/-- The source's `is_valid_password`, line for line: strip the edge
carriage-returns/newlines, enforce the length window, apply the fatal
checks in order, and otherwise accept exactly when the score reaches 3. -/
def is_valid_password (password : List Char) : Bool :=
  let s := stripCRLF password
  if s.length < 8 then false
  else if 128 < s.length then false
  else if denylistHit s then false
  else if looks_like_sequence s 5 || has_keyboard_run s 5 then false
  else if repeating_substring s then false
  else if long_run_same_char s 4 then false
  else if ambGt55 s then false
  else decide (3 ≤ scoreOf s)

/-- Exception-tracking variant of `is_valid_password`: every partial
operation of the Python source — the division `amb / max(1, len(s))` of
`ambiguous_ratio`, the unique-ratio division `len(set(s)) / len(s)`, and
the entropy computation's `c / len(text)` and `math.log2(p)` (defined only
for `p > 0`, i.e. only when every frequency count is positive) — is
guarded, yielding `none` exactly where Python would raise an exception.
`evaluator_total_no_failure` proves that no input reaches `none`. -/
def is_valid_password_checked (password : List Char) : Option Bool :=
  let s := stripCRLF password
  if s.length < 8 then some false
  else if 128 < s.length then some false
  else if denylistHit s then some false
  else if looks_like_sequence s 5 || has_keyboard_run s 5 then some false
  else if repeating_substring s then some false
  else if long_run_same_char s 4 then some false
  else if max 1 s.length = 0 then none
  else if ambGt55 s then some false
  else if s.length = 0 then none
  else if (countsOf s).all (fun c => decide (0 < c)) then some (decide (3 ≤ scoreOf s))
  else none

/-- Modelled from the claim's words (for comparison with the code):
"alphanumeric per ASCII classification". -/
def asciiAlnum (c : Char) : Bool := isLetterA c || isDigitA c

/-- Modelled from the claim's words (for comparison with the code):
"whitespace per ASCII classification", the six ASCII whitespace
characters. -/
def asciiWhite (c : Char) : Bool :=
  c == ' ' || c == '\t' || c == '\n' || c == '\x0b' || c == '\x0c' || c == '\r'

/-- Modelled from the claim's words (for comparison with the code): a
"symbol" is a character that is neither alphanumeric nor whitespace, per
ASCII classification. -/
def asciiSymbolSpec (c : Char) : Bool := !asciiAlnum c && !asciiWhite c
theorem beginsWith_iff (pat l : List Char) :
    beginsWith pat l = true ↔ ∃ r, l = pat ++ r := by
  induction pat generalizing l with
  | nil => simp [beginsWith]
  | cons p ps ih =>
    cases l with
    | nil => simp [beginsWith]
    | cons c cs =>
      simp only [beginsWith, Bool.and_eq_true, beq_iff_eq, ih,
        List.cons_append, List.cons_eq_cons]
      constructor
      · rintro ⟨rfl, r, rfl⟩; exact ⟨r, rfl, rfl⟩
      · rintro ⟨r, rfl, rfl⟩; exact ⟨rfl, r, rfl⟩

theorem occursIn_iff (pat l : List Char) :
    occursIn pat l = true ↔ ∃ u v, l = u ++ pat ++ v := by
  induction l with
  | nil =>
    simp only [occursIn, List.isEmpty_iff]
    constructor
    · rintro rfl; exact ⟨[], [], rfl⟩
    · rintro ⟨u, v, h⟩
      rcases List.append_eq_nil.mp h.symm with ⟨h1, h2⟩
      exact (List.append_eq_nil.mp h1).2
  | cons c cs ih =>
    simp only [occursIn, Bool.or_eq_true, beginsWith_iff, ih]
    constructor
    · rintro (⟨r, hr⟩ | ⟨u, v, huv⟩)
      · exact ⟨[], r, by simpa using hr⟩
      · exact ⟨c :: u, v, by simp [huv]⟩
    · rintro ⟨u, v, huv⟩
      cases u with
      | nil => exact Or.inl ⟨v, by simpa using huv⟩
      | cons a as =>
        simp only [List.cons_append, List.cons_eq_cons] at huv
        exact Or.inr ⟨as, v, huv.2⟩

theorem ambGt55_iff (s : List Char) :
    ambGt55 s = true ↔ (11 : ℚ) / 20 < ambFrac s := by
  unfold ambGt55 ambFrac
  set m : Nat := max 1 s.length with hm
  have h1 : 1 ≤ m := by rw [hm]; exact le_max_left _ _
  have hpos : (0 : ℚ) < (m : ℚ) := by
    exact_mod_cast Nat.lt_of_lt_of_le Nat.zero_lt_one h1
  rw [decide_eq_true_iff, div_lt_div_iff₀ (by norm_num : (0:ℚ) < 20) hpos]
  constructor
  · intro h
    have : ((11 * m : Nat) : ℚ) < ((20 * ambCount s : Nat) : ℚ) := by exact_mod_cast h
    push_cast at this
    linarith
  · intro h
    have : ((11 * m : Nat) : ℚ) < ((20 * ambCount s : Nat) : ℚ) := by push_cast; linarith
    exact_mod_cast this

theorem ambGt35_iff (s : List Char) :
    ambGt35 s = true ↔ (7 : ℚ) / 20 < ambFrac s := by
  unfold ambGt35 ambFrac
  set m : Nat := max 1 s.length with hm
  have h1 : 1 ≤ m := by rw [hm]; exact le_max_left _ _
  have hpos : (0 : ℚ) < (m : ℚ) := by
    exact_mod_cast Nat.lt_of_lt_of_le Nat.zero_lt_one h1
  rw [decide_eq_true_iff, div_lt_div_iff₀ (by norm_num : (0:ℚ) < 20) hpos]
  constructor
  · intro h
    have : ((7 * m : Nat) : ℚ) < ((20 * ambCount s : Nat) : ℚ) := by exact_mod_cast h
    push_cast at this
    linarith
  · intro h
    have : ((7 * m : Nat) : ℚ) < ((20 * ambCount s : Nat) : ℚ) := by push_cast; linarith
    exact_mod_cast this

theorem ambGt15_iff (s : List Char) :
    ambGt15 s = true ↔ (3 : ℚ) / 20 < ambFrac s := by
  unfold ambGt15 ambFrac
  set m : Nat := max 1 s.length with hm
  have h1 : 1 ≤ m := by rw [hm]; exact le_max_left _ _
  have hpos : (0 : ℚ) < (m : ℚ) := by
    exact_mod_cast Nat.lt_of_lt_of_le Nat.zero_lt_one h1
  rw [decide_eq_true_iff, div_lt_div_iff₀ (by norm_num : (0:ℚ) < 20) hpos]
  constructor
  · intro h
    have : ((3 * m : Nat) : ℚ) < ((20 * ambCount s : Nat) : ℚ) := by exact_mod_cast h
    push_cast at this
    linarith
  · intro h
    have : ((3 * m : Nat) : ℚ) < ((20 * ambCount s : Nat) : ℚ) := by push_cast; linarith
    exact_mod_cast this

theorem uniqGe50_iff (s : List Char) (h : 0 < s.length) :
    uniqGe50 s = true ↔ (1 : ℚ) / 2 ≤ uniqFrac s := by
  unfold uniqGe50 uniqFrac
  have hpos : (0 : ℚ) < (s.length : ℚ) := by exact_mod_cast h
  rw [decide_eq_true_iff, div_le_div_iff₀ (by norm_num : (0:ℚ) < 2) hpos]
  constructor
  · intro hle
    have : ((s.length : Nat) : ℚ) ≤ ((2 * s.dedup.length : Nat) : ℚ) := by exact_mod_cast hle
    push_cast at this
    linarith
  · intro hle
    have : ((s.length : Nat) : ℚ) ≤ ((2 * s.dedup.length : Nat) : ℚ) := by push_cast; linarith
    exact_mod_cast this

theorem uniqLe30_iff (s : List Char) (h : 0 < s.length) :
    uniqLe30 s = true ↔ uniqFrac s ≤ (3 : ℚ) / 10 := by
  unfold uniqLe30 uniqFrac
  have hpos : (0 : ℚ) < (s.length : ℚ) := by exact_mod_cast h
  rw [decide_eq_true_iff, div_le_div_iff₀ hpos (by norm_num : (0:ℚ) < 10)]
  constructor
  · intro hle
    have : ((10 * s.dedup.length : Nat) : ℚ) ≤ ((3 * s.length : Nat) : ℚ) := by exact_mod_cast hle
    push_cast at this
    linarith
  · intro hle
    have : ((10 * s.dedup.length : Nat) : ℚ) ≤ ((3 * s.length : Nat) : ℚ) := by push_cast; linarith
    exact_mod_cast this

theorem pyLower_CRLF (c : Char) : isCRLF (pyLower c) = isCRLF c := by
  unfold pyLower
  split <;> rfl

theorem dropWhile_map_pyLower (l : List Char) :
    (l.map pyLower).dropWhile isCRLF = (l.dropWhile isCRLF).map pyLower := by
  induction l with
  | nil => rfl
  | cons c cs ih =>
    simp only [List.map_cons, List.dropWhile_cons, pyLower_CRLF]
    by_cases h : isCRLF c
    · simp [h, ih]
    · simp [h]

theorem stripCRLF_map_pyLower (l : List Char) :
    stripCRLF (l.map pyLower) = (stripCRLF l).map pyLower := by
  unfold stripCRLF
  rw [dropWhile_map_pyLower, ← List.map_reverse, dropWhile_map_pyLower, ← List.map_reverse]

theorem occursIn_dropWhile (pat l : List Char) (p : Char → Bool) (hne : pat ≠ [])
    (hfree : ∀ c ∈ pat, p c = false) (h : occursIn pat l = true) :
    occursIn pat (l.dropWhile p) = true := by
  induction l with
  | nil => exact h
  | cons c cs ih =>
    rw [List.dropWhile_cons]
    by_cases hc : p c
    · simp only [hc, if_true]
      apply ih
      cases pat with
      | nil => exact absurd rfl hne
      | cons p0 ps =>
        have hp0 : (p0 == c) = false := by
          rw [beq_eq_false_iff_ne]
          intro heq
          rw [heq] at hfree
          have := hfree c (List.mem_cons_self _ _)
          rw [this] at hc
          exact absurd hc Bool.false_ne_true
        simp only [occursIn, beginsWith, hp0, Bool.false_and, Bool.false_or] at h
        exact h
    · simp only [hc, if_false]
      exact h

theorem occursIn_reverse (pat l : List Char) :
    occursIn pat.reverse l.reverse = occursIn pat l := by
  rw [Bool.eq_iff_iff, occursIn_iff, occursIn_iff]
  constructor
  · rintro ⟨u, v, huv⟩
    refine ⟨v.reverse, u.reverse, ?_⟩
    have := congrArg List.reverse huv
    simpa [List.reverse_append, List.append_assoc] using this
  · rintro ⟨u, v, huv⟩
    exact ⟨v.reverse, u.reverse, by simp [huv, List.reverse_append, List.append_assoc]⟩

theorem occursIn_stripCRLF (pat l : List Char) (hne : pat ≠ [])
    (hfree : ∀ c ∈ pat, isCRLF c = false) (h : occursIn pat l = true) :
    occursIn pat (stripCRLF l) = true := by
  unfold stripCRLF
  have h1 := occursIn_dropWhile pat l isCRLF hne hfree h
  have h2 : occursIn pat.reverse (l.dropWhile isCRLF).reverse = true := by
    rw [occursIn_reverse]; exact h1
  have h3 := occursIn_dropWhile pat.reverse ((l.dropWhile isCRLF).reverse) isCRLF
    (by simpa using hne) (by intro c hc; exact hfree c (List.mem_reverse.mp hc)) h2
  rw [← occursIn_reverse pat (((l.dropWhile isCRLF).reverse.dropWhile isCRLF).reverse),
    List.reverse_reverse]
  exact h3

theorem valid_length_bounds (pw : List Char) (h : is_valid_password pw = true) :
    8 ≤ (stripCRLF pw).length ∧ (stripCRLF pw).length ≤ 128 := by
  unfold is_valid_password at h
  by_cases h1 : (stripCRLF pw).length < 8
  · simp [h1] at h
  by_cases h2 : 128 < (stripCRLF pw).length
  · simp [h1, h2] at h
  · exact ⟨by omega, by omega⟩

theorem valid_false_of_seq_fatal (pw : List Char)
    (hf : looks_like_sequence (stripCRLF pw) 5 = true) :
    is_valid_password pw = false := by
  unfold is_valid_password
  by_cases h1 : (stripCRLF pw).length < 8
  · simp [h1]
  by_cases h2 : 128 < (stripCRLF pw).length
  · simp [h1, h2]
  by_cases h3 : denylistHit (stripCRLF pw)
  · simp [h1, h2, h3]
  · simp [h1, h2, h3, hf]

theorem dropWhile_append_of_ne_nil (p : Char → Bool) (l t : List Char)
    (h : l.dropWhile p ≠ []) : (l ++ t).dropWhile p = l.dropWhile p ++ t := by
  induction l with
  | nil => simp [List.dropWhile] at h
  | cons c cs ih =>
    rw [List.cons_append, List.dropWhile_cons, List.dropWhile_cons]
    by_cases hc : p c
    · rw [List.dropWhile_cons, if_pos hc] at h
      simp only [hc, if_true]
      exact ih h
    · simp [hc]

/-- C4: every input that case-insensitively contains one of the 17 denylist
tokens as a substring (not only as a whole word) is rejected. -/
theorem denylist_substring_reject (password : List Char)
    (h : ∃ tok ∈ COMMON_BAD, occursIn tok (password.map pyLower) = true) :
    is_valid_password password = false := by
  obtain ⟨tok, htok, hocc⟩ := h
  have hprops : ∀ t ∈ COMMON_BAD, t ≠ [] ∧ ∀ c ∈ t, isCRLF c = false := by decide
  obtain ⟨hne, hfree⟩ := hprops tok htok
  have hden : denylistHit (stripCRLF password) = true := by
    rw [denylistHit, List.any_eq_true]
    refine ⟨tok, htok, ?_⟩
    rw [← stripCRLF_map_pyLower]
    exact occursIn_stripCRLF tok (password.map pyLower) hne hfree hocc
  unfold is_valid_password
  by_cases h1 : (stripCRLF password).length < 8
  · simp [h1]
  by_cases h2 : 128 < (stripCRLF password).length
  · simp [h1, h2]
  · simp [h1, h2, hden]

theorem denylist_substring_reject_witness :
    (∃ tok ∈ COMMON_BAD, occursIn tok (((("Password2024!x").toList)).map pyLower) = true) ∧
      is_valid_password (("Password2024!x").toList) = false :=
  ⟨⟨("password").toList, by decide, by decide⟩,
    denylist_substring_reject _ ⟨("password").toList, by decide, by decide⟩⟩

/-- C5: appending the fatal sequential run 12345 to any accepted string
flips the verdict to rejection. -/
theorem append_sequential_run_flips (s : List Char)
    (h : is_valid_password s = true) :
    is_valid_password (s ++ ("12345").toList) = false := by
  obtain ⟨hlen8, _⟩ := valid_length_bounds s h
  have hdlen : (stripCRLF s).length ≤ (s.dropWhile isCRLF).length := by
    unfold stripCRLF
    rw [List.length_reverse]
    calc ((s.dropWhile isCRLF).reverse.dropWhile isCRLF).length
        ≤ (s.dropWhile isCRLF).reverse.length := (List.dropWhile_sublist _).length_le
      _ = (s.dropWhile isCRLF).length := List.length_reverse _
  have hdne : s.dropWhile isCRLF ≠ [] := by
    intro h0
    rw [h0] at hdlen
    simp only [List.length_nil] at hdlen
    omega
  have hstrip : stripCRLF (s ++ ("12345").toList) =
      s.dropWhile isCRLF ++ ("12345").toList := by
    unfold stripCRLF
    rw [dropWhile_append_of_ne_nil _ _ _ hdne, List.reverse_append]
    have : List.dropWhile isCRLF ((("12345").toList).reverse ++ (s.dropWhile isCRLF).reverse) =
        (("12345").toList).reverse ++ (s.dropWhile isCRLF).reverse := by
      rfl
    rw [this, List.reverse_append, List.reverse_reverse, List.reverse_reverse]
  apply valid_false_of_seq_fatal
  rw [hstrip]
  unfold looks_like_sequence
  have hlen : ¬ (s.dropWhile isCRLF ++ ("12345").toList).length < 5 := by
    simp [List.length_append]
  rw [if_neg hlen, List.any_eq_true]
  refine ⟨("0123456789").toList, by decide, ?_⟩
  rw [Bool.or_eq_true]
  left
  rw [List.any_eq_true]
  refine ⟨("12345").toList, by decide, ?_⟩
  rw [occursIn_iff]
  exact ⟨s.dropWhile isCRLF, [], by simp⟩

theorem append_sequential_run_flips_witness :
    is_valid_password (("mintChai#27Drift").toList) = true ∧
      is_valid_password ((("mintChai#27Drift").toList) ++ ("12345").toList) = false :=
  ⟨by decide, append_sequential_run_flips _ (by decide)⟩

/-- C1: the verdict of `is_valid_password` is acceptance exactly when the
stripped length lies in the 8..128 window, none of the five fatal checks
fires, and the additive signal score reaches the threshold 3; in
particular, whenever a fatal check fires the result is rejection. -/
theorem valid_password_decision_structure (password : List Char) :
    is_valid_password password = true ↔
      (8 ≤ (stripCRLF password).length ∧ (stripCRLF password).length ≤ 128 ∧
       fatalFired (stripCRLF password) = false ∧ 3 ≤ scoreOf (stripCRLF password)) := by
  unfold is_valid_password fatalFired
  set s := stripCRLF password with hs
  by_cases h1 : s.length < 8
  · simp [h1]
  by_cases h2 : 128 < s.length
  · simp [h1, h2]
  by_cases h3 : denylistHit s
  · simp [h1, h2, h3]
  by_cases h4 : looks_like_sequence s 5 || has_keyboard_run s 5
  · simp [h1, h2, h3, h4]
  by_cases h5 : repeating_substring s
  · simp [h1, h2, h3, h4, h5]
  by_cases h6 : long_run_same_char s 4
  · simp [h1, h2, h3, h4, h5, h6]
  by_cases h7 : ambGt55 s
  · simp [h1, h2, h3, h4, h5, h6, h7]
  · simp [h1, h2, h3, h4, h5, h6, h7]
    exact ⟨fun h => ⟨by omega, by omega, h⟩, fun h => h.2.2⟩

/-- C2: the seven worked examples of spec section 8 evaluate as listed. -/
theorem worked_examples_verdicts :
    is_valid_password (("mintChai#27Drift").toList) = true ∧
    is_valid_password (("NovaTrail_19$elm").toList) = true ∧
    is_valid_password (("password123").toList) = false ∧
    is_valid_password (("11111111").toList) = false ∧
    is_valid_password (("O0O0O0O0").toList) = false ∧
    is_valid_password (("ABABABAB").toList) = false ∧
    is_valid_password (("asdfghjk").toList) = false :=
  ⟨by decide, by decide, by decide, by decide, by decide, by decide, by decide⟩

/-- C3: every input whose stripped length is below 8 or above 128 is
rejected. -/
theorem length_bounds_reject (password : List Char)
    (h : (stripCRLF password).length < 8 ∨ 128 < (stripCRLF password).length) :
    is_valid_password password = false := by
  unfold is_valid_password
  rcases h with h | h
  · simp [h]
  · have h8 : ¬ (stripCRLF password).length < 8 := by omega
    simp [h8, h]

theorem length_bounds_reject_witness :
    ((stripCRLF (("abc").toList)).length < 8 ∨ 128 < (stripCRLF (("abc").toList)).length) ∧
      is_valid_password (("abc").toList) = false :=
  ⟨Or.inl (by decide), length_bounds_reject _ (Or.inl (by decide))⟩

/-- C7 (amended): `repeating_substring` holds exactly when the text is a
unit of length 1..3 that is a proper divisor of the length (so the unit
repeats at least twice) repeated to fill the whole string; the original
claim omitted the properness requirement `m < length`. -/
theorem repeating_substring_iff (text : List Char) :
    repeating_substring text = true ↔
      ∃ m, 1 ≤ m ∧ m ≤ 3 ∧ m < text.length ∧ m ∣ text.length ∧
        text = (List.replicate (text.length / m) (text.take m)).flatten := by
  unfold repeating_substring
  rw [List.any_eq_true]
  constructor
  · rintro ⟨m, hm, hcond⟩
    rw [List.mem_range'_1] at hm
    simp only [Bool.and_eq_true, beq_iff_eq] at hcond
    have hdvd : m ∣ text.length := Nat.dvd_of_mod_eq_zero (by exact_mod_cast hcond.1)
    exact ⟨m, by omega, by omega, by omega, hdvd, hcond.2⟩
  · rintro ⟨m, h1, h3, hlt, hdvd, heq⟩
    refine ⟨m, ?_, ?_⟩
    · rw [List.mem_range'_1]
      omega
    · simp only [Bool.and_eq_true, beq_iff_eq]
      exact ⟨by rw [Nat.dvd_iff_mod_eq_zero] at hdvd; exact_mod_cast hdvd, heq⟩

/-- C7 counterexample: at the input abc, the claimed characterisation
(period 1..3 dividing the length, with no properness requirement) holds
with the trivial period 3, yet `repeating_substring` returns false. -/
theorem repeating_substring_claim_cex :
    repeating_substring (("abc").toList) = false ∧
      ∃ m, 1 ≤ m ∧ m ≤ 3 ∧ m ∣ (("abc").toList).length ∧
        ("abc").toList =
          (List.replicate ((("abc").toList).length / m) ((("abc").toList).take m)).flatten :=
  ⟨by decide, 3, by decide, by decide, by decide, by decide⟩

/-- C9: a length-8 candidate with mixed character classes and no fatal
pattern is accepted, so the minimum-length acceptance path is reachable. -/
theorem min_length_acceptance_reachable :
    ∃ s : List Char, s.length = 8 ∧ 3 ≤ classCountOf s ∧ fatalFired s = false ∧
      is_valid_password s = true :=
  ⟨("Tiger#4z").toList, by decide, by decide, by decide, by decide⟩

/-- C8: the evaluator is total — the guarded variant, which returns `none`
wherever the Python source would raise (division by zero, `log2` of a
non-positive number), always returns `some` of the unguarded verdict, for
every input including the empty string and non-ASCII strings. -/
theorem evaluator_total_no_failure (password : List Char) :
    is_valid_password_checked password = some (is_valid_password password) := by
  unfold is_valid_password_checked is_valid_password
  set s := stripCRLF password with hs
  by_cases h1 : s.length < 8
  · simp [h1]
  by_cases h2 : 128 < s.length
  · simp [h1, h2]
  have hn0 : ¬ s.length = 0 := by omega
  have hmax : ¬ max 1 s.length = 0 := by omega
  have hcounts : (countsOf s).all (fun c => decide (0 < c)) = true := by
    rw [List.all_eq_true]
    intro c hc
    rw [countsOf, List.mem_map] at hc
    obtain ⟨a, ha, rfl⟩ := hc
    exact decide_eq_true (List.count_pos_iff.mpr (List.mem_dedup.mp ha))
  by_cases h3 : denylistHit s
  · simp [h1, h2, h3]
  by_cases h4 : looks_like_sequence s 5 || has_keyboard_run s 5
  · simp [h1, h2, h3, h4]
  by_cases h5 : repeating_substring s
  · simp [h1, h2, h3, h4, h5]
  by_cases h6 : long_run_same_char s 4
  · simp [h1, h2, h3, h4, h5, h6]
  by_cases h7 : ambGt55 s
  · simp [h1, h2, h3, h4, h5, h6, h7, hmax]
  · simp [h1, h2, h3, h4, h5, h6, h7, hmax, hn0, hcounts]

theorem pyIsDigit_eq_ascii (c : Char) (h : c.toNat ≤ 126) :
    pyIsDigit c = isDigitA c := by
  have h1 : (c == '¹') = false := by
    rw [beq_eq_false_iff_ne]; rintro rfl; exact absurd h (by decide)
  have h2 : (c == '²') = false := by
    rw [beq_eq_false_iff_ne]; rintro rfl; exact absurd h (by decide)
  have h3 : (c == '³') = false := by
    rw [beq_eq_false_iff_ne]; rintro rfl; exact absurd h (by decide)
  simp [pyIsDigit, h1, h2, h3]

theorem pySymbol_eq_ascii (c : Char) (h32 : 32 ≤ c.toNat) (h126 : c.toNat ≤ 126) :
    (!pyIsAlnum c && !pyIsSpace c) = asciiSymbolSpec c := by
  have ha : pyIsAlnum c = asciiAlnum c := by
    have e1 : (c == 'ª') = false := by
      rw [beq_eq_false_iff_ne]; rintro rfl; exact absurd h126 (by decide)
    have e2 : (c == 'µ') = false := by
      rw [beq_eq_false_iff_ne]; rintro rfl; exact absurd h126 (by decide)
    have e3 : (c == 'º') = false := by
      rw [beq_eq_false_iff_ne]; rintro rfl; exact absurd h126 (by decide)
    have e4 : (c == '¹') = false := by
      rw [beq_eq_false_iff_ne]; rintro rfl; exact absurd h126 (by decide)
    have e5 : (c == '²') = false := by
      rw [beq_eq_false_iff_ne]; rintro rfl; exact absurd h126 (by decide)
    have e6 : (c == '³') = false := by
      rw [beq_eq_false_iff_ne]; rintro rfl; exact absurd h126 (by decide)
    have e7 : (c == '¼') = false := by
      rw [beq_eq_false_iff_ne]; rintro rfl; exact absurd h126 (by decide)
    have e8 : (c == '½') = false := by
      rw [beq_eq_false_iff_ne]; rintro rfl; exact absurd h126 (by decide)
    have e9 : (c == '¾') = false := by
      rw [beq_eq_false_iff_ne]; rintro rfl; exact absurd h126 (by decide)
    have e10 : decide (0xC0 ≤ c.toNat) = false := decide_eq_false (by omega)
    simp [pyIsAlnum, asciiAlnum, e1, e2, e3, e4, e5, e6, e7, e8, e9, e10]
  have hsp : pyIsSpace c = asciiWhite c := by
    have e1 : decide (c.toNat ≤ 13) = false := decide_eq_false (by omega)
    have e2 : decide (c.toNat ≤ 31) = false := decide_eq_false (by omega)
    have e3 : (c.toNat == 133) = false := by
      rw [beq_eq_false_iff_ne]; omega
    have e4 : (c.toNat == 160) = false := by
      rw [beq_eq_false_iff_ne]; omega
    have w2 : (c == '\t') = false := by
      rw [beq_eq_false_iff_ne]; rintro rfl; exact absurd h32 (by decide)
    have w3 : (c == '\n') = false := by
      rw [beq_eq_false_iff_ne]; rintro rfl; exact absurd h32 (by decide)
    have w4 : (c == '\x0b') = false := by
      rw [beq_eq_false_iff_ne]; rintro rfl; exact absurd h32 (by decide)
    have w5 : (c == '\x0c') = false := by
      rw [beq_eq_false_iff_ne]; rintro rfl; exact absurd h32 (by decide)
    have w6 : (c == '\r') = false := by
      rw [beq_eq_false_iff_ne]; rintro rfl; exact absurd h32 (by decide)
    have wsp : (c.toNat == 32) = (c == ' ') := by
      by_cases hc : c = ' '
      · subst hc; rfl
      · have : (c == ' ') = false := beq_eq_false_iff_ne.mpr hc
        rw [this, beq_eq_false_iff_ne]
        intro h32'
        apply hc
        have := congrArg Char.ofNat h32'
        rwa [Char.ofNat_toNat] at this
    simp [pyIsSpace, asciiWhite, e1, e2, e3, e4, w2, w3, w4, w5, w6, wsp]
  rw [ha, hsp, asciiSymbolSpec]

/-- C6 counterexample: the letter e-acute is neither alphanumeric nor
whitespace per ASCII classification, so the claim calls it a symbol, yet
`char_classes` does not set the symbol flag for it (Python's Unicode
`isalnum` counts it as alphanumeric); and the superscript two sets the
digit flag although it is not an ASCII digit. -/
theorem char_classes_ascii_claim_cex :
    ((char_classes (['é'])).has_symbol = false ∧ asciiSymbolSpec 'é' = true) ∧
    ((char_classes (['²'])).has_digit = true ∧ isDigitA '²' = false) := by
  decide

/-- C6 (amended): restricted to printable-ASCII inputs, the digit flag is
set exactly when an ASCII digit occurs and the symbol flag exactly when a
character that is neither ASCII-alphanumeric nor whitespace occurs; outside
ASCII the code follows Python's Unicode classification, under which a
non-ASCII letter is alphanumeric and therefore not a symbol. -/
theorem char_classes_ascii_amended (text : List Char)
    (h : ∀ c ∈ text, 32 ≤ c.toNat ∧ c.toNat ≤ 126) :
    ((char_classes text).has_digit = true ↔ ∃ c ∈ text, isDigitA c = true) ∧
    ((char_classes text).has_symbol = true ↔ ∃ c ∈ text, asciiSymbolSpec c = true) := by
  constructor
  · simp only [char_classes, List.any_eq_true]
    constructor
    · rintro ⟨c, hc, hd⟩
      exact ⟨c, hc, by rwa [← pyIsDigit_eq_ascii c (h c hc).2]⟩
    · rintro ⟨c, hc, hd⟩
      exact ⟨c, hc, by rwa [pyIsDigit_eq_ascii c (h c hc).2]⟩
  · simp only [char_classes, List.any_eq_true]
    constructor
    · rintro ⟨c, hc, hd⟩
      exact ⟨c, hc, by rwa [← pySymbol_eq_ascii c (h c hc).1 (h c hc).2]⟩
    · rintro ⟨c, hc, hd⟩
      exact ⟨c, hc, by rwa [pySymbol_eq_ascii c (h c hc).1 (h c hc).2]⟩

theorem char_classes_ascii_amended_witness :
    (∀ c ∈ ("a1!").toList, 32 ≤ c.toNat ∧ c.toNat ≤ 126) ∧
    (((char_classes (("a1!").toList)).has_digit = true ↔
        ∃ c ∈ ("a1!").toList, isDigitA c = true) ∧
     ((char_classes (("a1!").toList)).has_symbol = true ↔
        ∃ c ∈ ("a1!").toList, asciiSymbolSpec c = true)) :=
  ⟨by decide, char_classes_ascii_amended _ (by decide)⟩

theorem dropWhile_eq_self_of_false (p : Char → Bool) (l : List Char)
    (h : ∀ c ∈ l, p c = false) : l.dropWhile p = l := by
  cases l with
  | nil => rfl
  | cons c cs =>
    rw [List.dropWhile_cons, if_neg]
    rw [h c (List.mem_cons_self _ _)]
    simp

theorem stripCRLF_eq_self (l : List Char) (h : ∀ c ∈ l, isCRLF c = false) :
    stripCRLF l = l := by
  unfold stripCRLF
  rw [dropWhile_eq_self_of_false _ _ h,
    dropWhile_eq_self_of_false _ _ (fun c hc => h c (List.mem_reverse.mp hc)),
    List.reverse_reverse]

theorem splitChunks_mem (p : Char → Bool) (l : List Char) :
    ∀ ch ∈ splitChunks p l, ∀ c ∈ ch, c ∈ l := by
  induction l with
  | nil =>
    intro ch hch c hc
    simp only [splitChunks, List.mem_singleton] at hch
    subst hch
    cases hc
  | cons a as ih =>
    intro ch hch c hc
    simp only [splitChunks] at hch
    by_cases hp : p a
    · rw [if_pos hp] at hch
      rcases List.mem_cons.mp hch with rfl | hmem
      · cases hc
      · exact List.mem_cons_of_mem _ (ih ch hmem c hc)
    · rw [if_neg hp] at hch
      rcases hr : splitChunks p as with _ | ⟨h0, t0⟩
      · rw [hr] at hch
        rcases List.mem_singleton.mp hch with rfl
        rcases List.mem_singleton.mp hc with rfl
        exact List.mem_cons_self _ _
      · rw [hr] at hch
        rcases List.mem_cons.mp hch with rfl | hmem
        · rcases List.mem_cons.mp hc with rfl | hc0
          · exact List.mem_cons_self _ _
          · refine List.mem_cons_of_mem _ (ih h0 ?_ c hc0)
            rw [hr]
            exact List.mem_cons_self _ _
        · refine List.mem_cons_of_mem _ (ih ch ?_ c hc)
          rw [hr]
          exact List.mem_cons_of_mem _ hmem

theorem hasCamel_exists_upper (l : List Char) (h : hasCamel l = true) :
    ∃ c ∈ l, isUpperA c = true := by
  induction l with
  | nil => simp [hasCamel] at h
  | cons a as ih =>
    simp only [hasCamel, Bool.or_eq_true] at h
    rcases h with h | h
    · cases as with
      | nil => simp [camelAt] at h
      | cons b bs =>
        simp only [camelAt, Bool.and_eq_true] at h
        exact ⟨a, List.mem_cons_self _ _, h.1.1⟩
    · obtain ⟨c, hc, hu⟩ := ih h
      exact ⟨c, List.mem_cons_of_mem _ hc, hu⟩

theorem window3any_exists (p : Char → Char → Char → Bool) (l : List Char)
    (h : window3any p l = true) : ∃ a b c, p a b c = true ∧ a ∈ l := by
  induction l with
  | nil => simp [window3any] at h
  | cons x xs ih =>
    cases xs with
    | nil => simp [window3any] at h
    | cons y ys =>
      cases ys with
      | nil => simp [window3any] at h
      | cons z zs =>
        simp only [window3any, Bool.or_eq_true] at h
        rcases h with h | h
        · exact ⟨x, y, z, h, List.mem_cons_self _ _⟩
        · obtain ⟨a, b, c, hp, ha⟩ := ih h
          exact ⟨a, b, c, hp, List.mem_cons_of_mem _ ha⟩

theorem not_lower_of_digit (c : Char) (h : isDigitA c = true) : isLowerA c = false := by
  simp only [isDigitA, Bool.and_eq_true, decide_eq_true_eq] at h
  have : ¬ ('a' ≤ c) := fun hac => (by decide : ¬ ('a' ≤ '9')) (le_trans hac h.2)
  simp [isLowerA, this]

theorem not_upper_of_digit (c : Char) (h : isDigitA c = true) : isUpperA c = false := by
  simp only [isDigitA, Bool.and_eq_true, decide_eq_true_eq] at h
  have : ¬ ('A' ≤ c) := fun hac => (by decide : ¬ ('A' ≤ '9')) (le_trans hac h.2)
  simp [isUpperA, this]

theorem not_letter_of_digit (c : Char) (h : isDigitA c = true) : isLetterA c = false := by
  simp [isLetterA, not_lower_of_digit c h, not_upper_of_digit c h]

theorem not_CRLF_of_digit (c : Char) (h : isDigitA c = true) : isCRLF c = false := by
  rw [isCRLF, Bool.or_eq_false_iff]
  constructor
  · rw [beq_eq_false_iff_ne]; rintro rfl; exact absurd h (by decide)
  · rw [beq_eq_false_iff_ne]; rintro rfl; exact absurd h (by decide)

theorem wordish_false_of_all_digit (s : List Char)
    (hd : ∀ c ∈ s, isDigitA c = true) : wordish_presence s = false := by
  rw [wordish_presence, Bool.or_eq_false_iff]
  constructor
  · rw [List.any_eq_false]
    intro ch hch
    have hfil : ch.filter isLetterA = [] := by
      rw [List.filter_eq_nil_iff]
      intro c hc
      rw [not_letter_of_digit c (hd c (splitChunks_mem sepChar s ch hch c hc))]
      exact Bool.false_ne_true
    intro hw
    rw [looks_like_word_segment, hfil] at hw
    simp at hw
  · by_contra hcam
    rw [Bool.not_eq_false] at hcam
    obtain ⟨c, hc, hu⟩ := hasCamel_exists_upper s hcam
    rw [not_upper_of_digit c (hd c hc)] at hu
    exact Bool.false_ne_true hu

theorem non_edge_false_of_all_digit (s : List Char)
    (hd : ∀ c ∈ s, isDigitA c = true) : non_edge_digit_symbol s = false := by
  rw [non_edge_digit_symbol, Bool.or_eq_false_iff]
  constructor
  · by_contra hw
    rw [Bool.not_eq_false] at hw
    obtain ⟨a, b, c, hp, ha⟩ := window3any_exists _ s hw
    rw [Bool.and_eq_true, Bool.and_eq_true] at hp
    have := hp.1.1
    rw [not_letter_of_digit a (hd a ha)] at this
    exact Bool.false_ne_true this
  · by_contra hw
    rw [Bool.not_eq_false] at hw
    obtain ⟨a, b, c, hp, ha⟩ := window3any_exists _ s hw
    rw [Bool.and_eq_true, Bool.and_eq_true] at hp
    have := hp.1.1
    rw [not_letter_of_digit a (hd a ha)] at this
    exact Bool.false_ne_true this

theorem classCount_one_of_all_digit (s : List Char)
    (hd : ∀ c ∈ s, isDigitA c = true) (hne : s ≠ []) : classCountOf s = 1 := by
  obtain ⟨c0, hc0⟩ := List.exists_mem_of_ne_nil s hne
  have hlow : (char_classes s).has_lower = false := by
    simp only [char_classes, List.any_eq_false]
    intro c hc
    rw [not_lower_of_digit c (hd c hc)]
    exact Bool.false_ne_true
  have hup : (char_classes s).has_upper = false := by
    simp only [char_classes, List.any_eq_false]
    intro c hc
    rw [not_upper_of_digit c (hd c hc)]
    exact Bool.false_ne_true
  have hdig : (char_classes s).has_digit = true := by
    simp only [char_classes, List.any_eq_true]
    exact ⟨c0, hc0, by simp [pyIsDigit, hd c0 hc0]⟩
  have hsym : (char_classes s).has_symbol = false := by
    simp only [char_classes, List.any_eq_false]
    intro c hc
    have : pyIsAlnum c = true := by
      simp [pyIsAlnum, hd c hc]
    rw [this]
    simp
  rw [classCountOf, hlow, hup, hdig, hsym]
  simp

theorem ite_le_ite {c : Prop} [Decidable c] {a b m : ℤ} (ha : a ≤ m) (hb : b ≤ m) :
    (if c then a else b) ≤ m := by
  split_ifs <;> assumption

theorem scoreOf_all_digit_le (s : List Char) (hd : ∀ c ∈ s, isDigitA c = true)
    (hlen : 8 ≤ s.length) : scoreOf s ≤ 1 := by
  have hne : s ≠ [] := by
    intro h0
    rw [h0] at hlen
    simp at hlen
  rw [scoreOf, classCount_one_of_all_digit s hd hne, wordish_false_of_all_digit s hd,
    non_edge_false_of_all_digit s hd]
  simp only [Bool.false_eq_true, if_false]
  have hcls : (if 3 ≤ (1:ℕ) then (2:ℤ) else if (1:ℕ) = 2 then 1 else -3) = -3 := by norm_num
  rw [hcls]
  have b1 : (if 10 ≤ s.length ∧ s.length ≤ 64 then (2:ℤ)
      else if 8 ≤ s.length ∧ s.length < 10 then 1 else 0) ≤ 2 :=
    ite_le_ite (le_refl 2) (ite_le_ite (by norm_num) (by norm_num))
  have b2 : (if has_year_like_suffix s = true then (-2:ℤ) else 0) ≤ 0 :=
    ite_le_ite (by norm_num) (le_refl 0)
  have b3 : (if looks_like_sequence s 4 = true then (-2:ℤ) else 0) ≤ 0 :=
    ite_le_ite (by norm_num) (le_refl 0)
  have b4 : (if has_keyboard_run s 4 = true then (-2:ℤ) else 0) ≤ 0 :=
    ite_le_ite (by norm_num) (le_refl 0)
  have b5 : (if long_run_same_char s 3 = true then (-2:ℤ) else 0) ≤ 0 :=
    ite_le_ite (by norm_num) (le_refl 0)
  have b6 : (if uniqGe50 s = true then (1:ℤ) else if uniqLe30 s = true then -1 else 0) ≤ 1 :=
    ite_le_ite (le_refl 1) (ite_le_ite (by norm_num) (by norm_num))
  have b7 : (if ambGt35 s = true then (-2:ℤ) else if ambGt15 s = true then -1 else 0) ≤ 0 :=
    ite_le_ite (by norm_num) (ite_le_ite (by norm_num) (le_refl 0))
  have b8 : (if 12 ≤ s.length ∧ entropyTest s = true then (1:ℤ) else 0) ≤ 1 :=
    ite_le_ite (le_refl 1) (by norm_num)
  linarith

/-- C10: an input consisting solely of ASCII digits is always rejected:
with no letters the word-likeness and interior-placement bonuses are
unattainable and the single-class penalty applies, capping the score at 1,
below the threshold 3. -/
theorem all_digit_reject (password : List Char)
    (h : ∀ c ∈ password, isDigitA c = true) :
    is_valid_password password = false := by
  have hstrip : stripCRLF password = password :=
    stripCRLF_eq_self password (fun c hc => not_CRLF_of_digit c (h c hc))
  unfold is_valid_password
  rw [hstrip]
  by_cases h1 : password.length < 8
  · simp [h1]
  by_cases h2 : 128 < password.length
  · simp [h1, h2]
  by_cases h3 : denylistHit password
  · simp [h1, h2, h3]
  by_cases h4 : looks_like_sequence password 5 || has_keyboard_run password 5
  · simp [h1, h2, h3, h4]
  by_cases h5 : repeating_substring password
  · simp [h1, h2, h3, h4, h5]
  by_cases h6 : long_run_same_char password 4
  · simp [h1, h2, h3, h4, h5, h6]
  by_cases h7 : ambGt55 password
  · simp [h1, h2, h3, h4, h5, h6, h7]
  · have hb := scoreOf_all_digit_le password h (by omega)
    rw [if_neg h1, if_neg h2, if_neg h3, if_neg h4, if_neg h5, if_neg h6, if_neg h7]
    exact decide_eq_false (by omega)

theorem all_digit_reject_witness :
    (∀ c ∈ ("90317462").toList, isDigitA c = true) ∧
      is_valid_password (("90317462").toList) = false :=
  ⟨by decide, all_digit_reject _ (by decide)⟩

theorem list_sum_map_div (cs : List ℕ) (f : ℕ → ℝ) (K : ℝ) :
    (cs.map (fun c => f c / K)).sum = (cs.map f).sum / K := by
  induction cs with
  | nil => simp
  | cons c cs ih => simp [ih, add_div]

theorem list_sum_map_sub (cs : List ℕ) (f g : ℕ → ℝ) :
    (cs.map (fun c => f c - g c)).sum = (cs.map f).sum - (cs.map g).sum := by
  induction cs with
  | nil => simp
  | cons c cs ih =>
    simp only [List.map_cons, List.sum_cons, ih]
    ring

theorem list_sum_map_mul_right (cs : List ℕ) (f : ℕ → ℝ) (K : ℝ) :
    (cs.map (fun c => f c * K)).sum = (cs.map f).sum * K := by
  induction cs with
  | nil => simp
  | cons c cs ih =>
    simp only [List.map_cons, List.sum_cons, ih]
    ring

theorem list_sum_map_two_mul (cs : List ℕ) (f : ℕ → ℝ) :
    (cs.map (fun c => 2 * f c)).sum = 2 * (cs.map f).sum := by
  induction cs with
  | nil => simp
  | cons c cs ih =>
    simp only [List.map_cons, List.sum_cons, ih]
    ring

theorem log_list_prod (l : List ℝ) (h : ∀ x ∈ l, 0 < x) :
    Real.log l.prod = (l.map Real.log).sum := by
  induction l with
  | nil => simp
  | cons x xs ih =>
    simp only [List.prod_cons, List.map_cons, List.sum_cons]
    rw [Real.log_mul (ne_of_gt (h x (List.mem_cons_self _ _)))
        (ne_of_gt (List.prod_pos (fun y hy => h y (List.mem_cons_of_mem _ hy)))),
      ih (fun y hy => h y (List.mem_cons_of_mem _ hy))]

theorem entropy_int_iff_real (cs : List ℕ) (n : ℕ) (hpos : ∀ c ∈ cs, 0 < c)
    (hsum : cs.sum = n) (hn : 0 < n) :
    (2 ^ (5 * n) * (cs.map (fun c => c ^ (2 * c))).prod ≤ n ^ (2 * n)) ↔
      (5 / 2 : ℝ) ≤
        -((cs.map (fun c : ℕ => ((c:ℝ)/(n:ℝ)) * Real.logb 2 ((c:ℝ)/(n:ℝ)))).sum) := by
  have hnR : (0:ℝ) < (n:ℝ) := by exact_mod_cast hn
  have hL2 : (0:ℝ) < Real.log 2 := Real.log_pos (by norm_num)
  set S : ℝ := (cs.map (fun c : ℕ => (c:ℝ) * Real.log (c:ℝ))).sum with hS
  have hPRpos : (0:ℝ) < (cs.map (fun c : ℕ => ((c:ℝ)) ^ (2*c))).prod := by
    apply List.prod_pos
    intro x hx
    obtain ⟨c, hc, rfl⟩ := List.mem_map.mp hx
    have := hpos c hc
    positivity
  have hM_lhs : (2 ^ (5 * n) * (cs.map (fun c => c ^ (2 * c))).prod ≤ n ^ (2 * n)) ↔
      5 * (n:ℝ) * Real.log 2 + 2 * S ≤ 2 * (n:ℝ) * Real.log (n:ℝ) := by
    rw [← Nat.cast_le (α := ℝ)]
    have hcast : ((2 ^ (5 * n) * (cs.map (fun c => c ^ (2 * c))).prod : ℕ) : ℝ)
        = 2 ^ (5*n) * (cs.map (fun c : ℕ => ((c:ℝ)) ^ (2*c))).prod := by
      push_cast [Nat.cast_list_prod, List.map_map]
      congr 1
      apply congrArg List.prod
      apply List.map_congr_left
      intro c _
      simp only [Function.comp_apply]
      push_cast
      ring
    rw [hcast, show ((n ^ (2*n) : ℕ) : ℝ) = ((n:ℝ)) ^ (2*n) by push_cast; ring]
    rw [← Real.log_le_log_iff (by positivity) (by positivity)]
    rw [Real.log_mul (by positivity) (ne_of_gt hPRpos)]
    rw [Real.log_pow, Real.log_pow]
    rw [log_list_prod _ (by
      intro x hx
      obtain ⟨c, hc, rfl⟩ := List.mem_map.mp hx
      have := hpos c hc
      positivity)]
    rw [List.map_map]
    have hlog2 : (cs.map (Real.log ∘ fun c : ℕ => ((c:ℝ)) ^ (2*c))).sum
        = (cs.map (fun c : ℕ => 2 * ((c:ℝ) * Real.log (c:ℝ)))).sum := by
      apply congrArg List.sum
      apply List.map_congr_left
      intro c hc
      simp only [Function.comp_apply]
      rw [Real.log_pow]
      push_cast
      ring
    rw [hlog2, list_sum_map_two_mul, ← hS]
    constructor <;> intro h <;> · push_cast at h ⊢; linarith
  have hM_rhs : ((5 / 2 : ℝ) ≤
        -((cs.map (fun c : ℕ => ((c:ℝ)/(n:ℝ)) * Real.logb 2 ((c:ℝ)/(n:ℝ)))).sum)) ↔
      5 * (n:ℝ) * Real.log 2 + 2 * S ≤ 2 * (n:ℝ) * Real.log (n:ℝ) := by
    have h1 : ∀ c ∈ cs, ((c:ℝ)/(n:ℝ)) * Real.logb 2 ((c:ℝ)/(n:ℝ))
        = ((c:ℝ) * Real.log (c:ℝ) - (c:ℝ) * Real.log (n:ℝ)) / ((n:ℝ) * Real.log 2) := by
      intro c hc
      have hcR : (0:ℝ) < (c:ℝ) := by exact_mod_cast hpos c hc
      rw [← Real.log_div_log, Real.log_div (ne_of_gt hcR) (ne_of_gt hnR)]
      field_simp
      ring
    have hterm : (cs.map (fun c : ℕ => ((c:ℝ)/(n:ℝ)) * Real.logb 2 ((c:ℝ)/(n:ℝ)))).sum
        = (S - (n:ℝ) * Real.log (n:ℝ)) / ((n:ℝ) * Real.log 2) := by
      rw [List.map_congr_left h1, list_sum_map_div, list_sum_map_sub, list_sum_map_mul_right]
      have h2 : (cs.map (fun c : ℕ => (c:ℝ))).sum = (n:ℝ) := by
        rw [show (cs.map (fun c : ℕ => (c:ℝ))) = cs.map Nat.cast from rfl]
        rw [← Nat.cast_list_sum, hsum]
      rw [h2, ← hS]
    rw [hterm, ← neg_div, le_div_iff₀ (by positivity : (0:ℝ) < (n:ℝ) * Real.log 2)]
    constructor <;> intro h <;> nlinarith [h]
  rw [hM_lhs, hM_rhs]

/-- The integer inequality of `entropyTest` is exactly the cutoff
`H >= 5/2` for the Shannon entropy per character
`H = -sum (c/n) * log2 (c/n)` over the frequency distribution of a
nonempty text, as computed by the source's `shannon_entropy_per_char`. -/
theorem entropyTest_iff_shannon (text : List Char) (hne : text ≠ []) :
    entropyTest text = true ↔
      (5 / 2 : ℝ) ≤ -(((countsOf text).map (fun c : ℕ =>
          ((c:ℝ)/(text.length:ℝ)) * Real.logb 2 ((c:ℝ)/(text.length:ℝ)))).sum) := by
  have hpos : ∀ c ∈ countsOf text, 0 < c := by
    intro c hc
    rw [countsOf, List.mem_map] at hc
    obtain ⟨a, ha, rfl⟩ := hc
    exact List.count_pos_iff.mpr (List.mem_dedup.mp ha)
  have hsum : (countsOf text).sum = text.length := List.sum_map_count_dedup_eq_length text
  have hn : 0 < text.length := List.length_pos.mpr hne
  rw [entropyTest, decide_eq_true_iff]
  exact entropy_int_iff_real _ _ hpos hsum hn
